import Mathlib

namespace Trading

/-!
Shallow embedding of the `SimpleTradingEnv` Gym environment from
`Thesis_Code_Final_Version_Ferid_Kendic.ipynb` (Step 5 cell), together with
theorems checking the natural-language specification against it.

Real numbers of the program are modelled as `ℚ`; Python `int` share counts as
`ℤ`; the data-frame of price bars as `List Bar`.  A scalar action may be a
finite value or one of the IEEE special values (NaN, ±∞), whose flow through
`np.clip` and comparison operators is discrete and modelled exactly.
-/

/-- One row of the price data-frame: OHLC plus the two precomputed moving
averages (columns `Open, High, Low, Close, SMA5, SMA20`).  `open` is a Lean
keyword, hence the field name `open_`. -/
structure Bar where
  open_ : ℚ
  high : ℚ
  low : ℚ
  close : ℚ
  sma5 : ℚ
  sma20 : ℚ
deriving DecidableEq, Repr

/-- Default bar used only as the out-of-range default of `List.getD`; every
read in the development is shown to be in range. -/
def dbar : Bar := ⟨0, 0, 0, 0, 0, 0⟩

/-- A scalar action as received by `step`: a finite real, or one of the IEEE
special values NaN / +∞ / -∞ that a float can carry. -/
inductive Action where
  | finite (q : ℚ)
  | nan
  | posInf
  | negInf
deriving DecidableEq, Repr

/-- Error kinds named by the specification (§7). -/
inductive TErr where
  | rangeError
  | invalidStateError
  | invalidInputError
deriving DecidableEq, Repr

/-- Python `int(x)` on a float: truncation toward zero. -/
def pyInt (x : ℚ) : ℤ := if 0 ≤ x then ⌊x⌋ else -⌊-x⌋

/-- `np.clip(a, -1, 1)`, i.e. `np.minimum(1, np.maximum(-1, a))`: NaN passes
through unchanged, +∞ clips to 1, -∞ clips to -1. -/
def clip (a : Action) : Action :=
  match a with
  | .nan => .nan
  | .posInf => .finite 1
  | .negInf => .finite (-1)
  | .finite q => .finite (min 1 (max (-1) q))

/-- The environment's state: the data-frame reference and configuration fixed
at `__init__`, plus the mutable `cash`, `stock_owned`, `current_step`. -/
structure SimpleTradingEnv where
  df : List Bar
  lookback : ℕ
  cash : ℚ
  stock_owned : ℤ
  current_step : ℕ
  initial_cash : ℚ
  trade_penalty_factor : ℚ
deriving DecidableEq, Repr

/-- `SimpleTradingEnv.__init__(df, lookback=5)`: `cash = 10000`,
`stock_owned = 0`, `current_step = lookback`, `initial_cash = cash`,
`trade_penalty_factor = 0.01`.  (`n_steps` is stored as `len(df)` and the
data-frame never changes, so it is rendered as `df.length` below.) -/
def SimpleTradingEnv.init (df : List Bar) (lookback : ℕ := 5) : SimpleTradingEnv :=
  { df := df
    lookback := lookback
    cash := 10000
    stock_owned := 0
    current_step := lookback
    initial_cash := 10000
    trade_penalty_factor := 0.01 }

/-- `_get_obs`: the lookback window `df.iloc[cur-lookback : cur]`, its OHLC
values flattened row-major, then the SMA5 column, then the SMA20 column, then
`cash` and `stock_owned`. -/
def SimpleTradingEnv.get_obs (e : SimpleTradingEnv) : List ℚ :=
  let frame := (e.df.drop (e.current_step - e.lookback)).take e.lookback
  (frame.flatMap fun b => [b.open_, b.high, b.low, b.close])
    ++ frame.map (fun b => b.sma5) ++ frame.map (fun b => b.sma20)
    ++ [e.cash, (e.stock_owned : ℚ)]

/-- `reset`: `current_step = lookback`, `cash = initial_cash`,
`stock_owned = 0`, returning `_get_obs()` of the fresh state. -/
def SimpleTradingEnv.reset (e : SimpleTradingEnv) : List ℚ × SimpleTradingEnv :=
  let e' := { e with current_step := e.lookback, cash := e.initial_cash, stock_owned := 0 }
  (e'.get_obs, e')

/-- The buy / sell / hold block of `step`, acting on the already-clipped
action.  Returns `(cash, stock_owned, shares_traded)`.  A NaN action fails
both the `action > 0` and `action < 0` comparisons and falls through to hold.
`int(self.cash // price)` is float floor-division followed by `int` of an
integral value, i.e. `⌊cash / price⌋`. -/
def trade (cash : ℚ) (stock : ℤ) (price : ℚ) (a : Action) : ℚ × ℤ × ℤ :=
  let min_trade_amount : ℤ := 1
  match a with
  | .finite q =>
    if 0 < q then
      let max_buy : ℤ := ⌊cash / price⌋
      let shares_bought : ℤ := pyInt (q * max_buy)
      if min_trade_amount ≤ shares_bought then
        (cash - shares_bought * price, stock + shares_bought, shares_bought)
      else (cash, stock, 0)
    else if q < 0 then
      let shares_sold : ℤ := pyInt (|q| * stock)
      if min_trade_amount ≤ shares_sold then
        (cash + shares_sold * price, stock - shares_sold, shares_sold)
      else (cash, stock, 0)
    else (cash, stock, 0)
  | _ => (cash, stock, 0)

/-- What one `step` call returns, together with the internal values `price`,
`next_price` and `shares_traded` (field `traded`), exposed so the
specification can speak about them. -/
structure StepResult where
  obs : List ℚ
  reward : ℚ
  done : Bool
  env : SimpleTradingEnv
  price : ℚ
  next_price : ℚ
  traded : ℤ
deriving DecidableEq, Repr

/-- `step(action)`.  `df.iloc[self.current_step]` raises when the cursor is
past the end (`rangeError`); otherwise the call runs to completion: read the
close, value the portfolio, clip the action, trade, advance the cursor,
compute `done = current_step >= n_steps - 1`, the next observation, and the
reward.  When not done the `next_price` read `df.iloc[current_step]` is in
range, so the `getD` default is never used. -/
def SimpleTradingEnv.step (e : SimpleTradingEnv) (action : Action) :
    Except TErr StepResult :=
  if h : e.current_step < e.df.length then
    let row := e.df.get ⟨e.current_step, h⟩
    let price := row.close
    let prev_total_asset := e.cash + (e.stock_owned : ℚ) * price
    let a := clip action
    let t := trade e.cash e.stock_owned price a
    let cur' := e.current_step + 1
    let e' := { e with cash := t.1, stock_owned := t.2.1, current_step := cur' }
    let done : Bool := decide ((e.df.length : ℤ) - 1 ≤ (cur' : ℤ))
    let next_obs := e'.get_obs
    let next_price := if done then price else (e.df.getD cur' dbar).close
    let new_total_asset := t.1 + (t.2.1 : ℚ) * next_price
    let reward := new_total_asset - prev_total_asset - e.trade_penalty_factor * (t.2.2 : ℚ)
    .ok ⟨next_obs, reward, done, e', price, next_price, t.2.2⟩
  else
    .error .rangeError

/-- States reachable from `e0` by any finite sequence of (successful) `step`
calls with arbitrary actions. -/
inductive Reach (e0 : SimpleTradingEnv) : SimpleTradingEnv → Prop
  | refl : Reach e0 e0
  | step {e : SimpleTradingEnv} {a : Action} {r : StepResult} :
      Reach e0 e → e.step a = .ok r → Reach e0 r.env

/-- Run a list of actions from a state, collecting the final state and the
sequence of `done` flags the steps returned. -/
def runDones (e : SimpleTradingEnv) : List Action → Except TErr (SimpleTradingEnv × List Bool)
  | [] => .ok (e, [])
  | a :: as =>
    match e.step a with
    | .error err => .error err
    | .ok r =>
      match runDones r.env as with
      | .error err => .error err
      | .ok (e', ds) => .ok (e', r.done :: ds)

/-! Specification-side accessors: projections of a step's outcome, and
independent recomputations of the prices the reward should be built from. -/

/-- The new environment a successful step leaves behind. -/
def stepEnv (e : SimpleTradingEnv) (a : Action) : Option SimpleTradingEnv :=
  (e.step a).toOption.map (fun r => r.env)

/-- The `done` flag a successful step returns. -/
def stepDone (e : SimpleTradingEnv) (a : Action) : Option Bool :=
  (e.step a).toOption.map (fun r => r.done)

/-- The reward a successful step returns. -/
def stepReward (e : SimpleTradingEnv) (a : Action) : Option ℚ :=
  (e.step a).toOption.map (fun r => r.reward)

/-- The number of shares a successful step traded. -/
def stepTraded (e : SimpleTradingEnv) (a : Action) : Option ℤ :=
  (e.step a).toOption.map (fun r => r.traded)

/-- The cash balance after a successful step. -/
def stepCash (e : SimpleTradingEnv) (a : Action) : Option ℚ :=
  (e.step a).toOption.map (fun r => r.env.cash)

/-- Spec-side recomputation: the close price of the bar at the pre-advance
cursor. -/
def specPriceAt (e : SimpleTradingEnv) : ℚ := (e.df.getD e.current_step dbar).close

/-- Spec-side recomputation: the price the new portfolio value is taken at —
the close of the post-advance bar on a non-terminal step, and the pre-advance
close on the terminal step. -/
def specNextPriceAt (e : SimpleTradingEnv) : ℚ :=
  if (e.df.length : ℤ) - 1 ≤ (e.current_step : ℤ) + 1 then specPriceAt e
  else (e.df.getD (e.current_step + 1) dbar).close

/-- The layout the specification prescribes for an observation vector built at
cursor `c` with window size `L` over `df`: entries `4*i .. 4*i+3` are the OHLC
of bar `c - L + i`, entries `4*L + i` its SMA5, entries `5*L + i` its SMA20,
then `cash` and `stock_owned`, for a total length of `6*L + 2`.  (This
definition follows the specification's words; the theorems compare it with
`SimpleTradingEnv.get_obs`, which is translated from the code.) -/
def specObsLayout (df : List Bar) (L c : ℕ) (cash : ℚ) (stock : ℤ)
    (obs : List ℚ) : Prop :=
  obs.length = 6 * L + 2 ∧
  (∀ i, i < L →
    obs.getD (4 * i) 0 = (df.getD (c - L + i) dbar).open_ ∧
    obs.getD (4 * i + 1) 0 = (df.getD (c - L + i) dbar).high ∧
    obs.getD (4 * i + 2) 0 = (df.getD (c - L + i) dbar).low ∧
    obs.getD (4 * i + 3) 0 = (df.getD (c - L + i) dbar).close) ∧
  (∀ i, i < L → obs.getD (4 * L + i) 0 = (df.getD (c - L + i) dbar).sma5) ∧
  (∀ i, i < L → obs.getD (5 * L + i) 0 = (df.getD (c - L + i) dbar).sma20) ∧
  obs.getD (6 * L) 0 = cash ∧ obs.getD (6 * L + 1) 0 = (stock : ℚ)

/-! Concrete fixtures used by witnesses and counterexamples: a constant-price
series of three bars, lookback 1. -/

/-- A bar whose every column is 100. -/
def bar100 : Bar := ⟨100, 100, 100, 100, 100, 100⟩

/-- Three constant bars. -/
def df3 : List Bar := [bar100, bar100, bar100]

/-- The environment `SimpleTradingEnv.init df3 1` right after `reset`:
cursor 1, cash 10000, no stock. -/
def env3 : SimpleTradingEnv :=
  { df := df3, lookback := 1, cash := 10000, stock_owned := 0,
    current_step := 1, initial_cash := 10000, trade_penalty_factor := 0.01 }

/-- `env3` after one hold step: the terminated state (cursor 2 = length - 1). -/
def env3term : SimpleTradingEnv := { env3 with current_step := 2 }

/-- `env3` after stepping the terminated state once more: cursor 3 = length,
past the end. -/
def env3past : SimpleTradingEnv := { env3 with current_step := 3 }

/-! General lemmas about `trade` and `step`. -/

/-- An action that can come out of `clip`: NaN, or a finite value in
`[-1, 1]`. -/
def IsClipped (a : Action) : Prop :=
  a = .nan ∨ ∃ q, a = .finite q ∧ -1 ≤ q ∧ q ≤ 1

theorem clip_isClipped (a : Action) : IsClipped (clip a) := by
  cases a with
  | nan => exact Or.inl rfl
  | posInf => exact Or.inr ⟨1, rfl, by norm_num, le_refl 1⟩
  | negInf => exact Or.inr ⟨-1, rfl, le_refl (-1), by norm_num⟩
  | finite q =>
    refine Or.inr ⟨min 1 (max (-1) q), rfl, ?_, min_le_left _ _⟩
    exact le_min (by norm_num) (le_max_left _ _)

theorem pyInt_of_nonneg {x : ℚ} (h : 0 ≤ x) : pyInt x = ⌊x⌋ := if_pos h

/-- Cash accounting: whatever `trade` does, the cash moved is the share delta
times the price. -/
theorem trade_cash_eq (cash : ℚ) (stock : ℤ) (price : ℚ) (a : Action) :
    (trade cash stock price a).1 =
      cash - (((trade cash stock price a).2.1 - stock : ℤ) : ℚ) * price := by
  unfold trade
  cases a <;> simp only []
  case finite q =>
    split_ifs <;> push_cast <;> ring
  all_goals simp

/-- The reported `shares_traded` is the absolute share delta. -/
theorem trade_traded_eq (cash : ℚ) (stock : ℤ) (price : ℚ) (a : Action) :
    (trade cash stock price a).2.2 = |(trade cash stock price a).2.1 - stock| := by
  unfold trade
  cases a <;> simp only []
  case finite q =>
    split_ifs with h1 h2 h3 h4 <;> simp only [add_sub_cancel_left, sub_sub_cancel_left, abs_neg, sub_self, abs_zero]
    · exact (abs_of_nonneg (by omega)).symm
    · exact (abs_of_nonneg (by omega)).symm
  all_goals simp

/-- The trade never drives cash or holdings negative, for any clipped
action. -/
theorem trade_nonneg {cash : ℚ} {stock : ℤ} {price : ℚ} {a : Action}
    (hc : 0 ≤ cash) (hs : 0 ≤ stock) (hp : 0 < price) (ha : IsClipped a) :
    0 ≤ (trade cash stock price a).1 ∧ 0 ≤ (trade cash stock price a).2.1 := by
  rcases ha with rfl | ⟨q, rfl, hq1, hq2⟩
  · simpa [trade] using ⟨hc, hs⟩
  · unfold trade
    simp only []
    split_ifs with hpos h1 hneg h2 <;> dsimp only
    · -- buy executed
      have hmb : (0 : ℤ) ≤ ⌊cash / price⌋ := by
        have : (0 : ℚ) ≤ cash / price := div_nonneg hc hp.le
        exact Int.floor_nonneg.mpr this
      have hb0 : (0 : ℚ) ≤ q * (⌊cash / price⌋ : ℤ) := by
        have : (0 : ℚ) ≤ (⌊cash / price⌋ : ℤ) := by exact_mod_cast hmb
        exact mul_nonneg hpos.le this
      have hpy : pyInt (q * (⌊cash / price⌋ : ℤ)) = ⌊q * ((⌊cash / price⌋ : ℤ) : ℚ)⌋ :=
        pyInt_of_nonneg hb0
      constructor
      · -- cash - shares_bought * price ≥ 0
        have hble : pyInt (q * (⌊cash / price⌋ : ℤ)) ≤ ⌊cash / price⌋ := by
          rw [hpy]
          have h1' : q * ((⌊cash / price⌋ : ℤ) : ℚ) ≤ ((⌊cash / price⌋ : ℤ) : ℚ) := by
            have : (0 : ℚ) ≤ ((⌊cash / price⌋ : ℤ) : ℚ) := by exact_mod_cast hmb
            nlinarith
          calc ⌊q * ((⌊cash / price⌋ : ℤ) : ℚ)⌋ ≤ ⌊((⌊cash / price⌋ : ℤ) : ℚ)⌋ :=
                Int.floor_le_floor h1'
            _ = ⌊cash / price⌋ := Int.floor_intCast _
        have hfloor : ((⌊cash / price⌋ : ℤ) : ℚ) * price ≤ cash := by
          have := Int.floor_le (cash / price)
          calc ((⌊cash / price⌋ : ℤ) : ℚ) * price ≤ (cash / price) * price := by
                exact mul_le_mul_of_nonneg_right this hp.le
            _ = cash := div_mul_cancel₀ cash hp.ne'
        have : ((pyInt (q * (⌊cash / price⌋ : ℤ)) : ℤ) : ℚ) * price ≤ cash := by
          refine le_trans ?_ hfloor
          have : ((pyInt (q * (⌊cash / price⌋ : ℤ)) : ℤ) : ℚ) ≤ ((⌊cash / price⌋ : ℤ) : ℚ) := by
            exact_mod_cast hble
          exact mul_le_mul_of_nonneg_right this hp.le
        linarith
      · -- stock + shares_bought ≥ 0
        have : (0 : ℤ) ≤ pyInt (q * (⌊cash / price⌋ : ℤ)) := by
          rw [hpy]
          exact Int.floor_nonneg.mpr hb0
        omega
    · exact ⟨hc, hs⟩
    · -- sell executed
      have habs : |q| ≤ 1 := abs_le.mpr ⟨hq1, hq2⟩
      have hs0 : (0 : ℚ) ≤ |q| * (stock : ℤ) := by
        have : (0 : ℚ) ≤ ((stock : ℤ) : ℚ) := by exact_mod_cast hs
        exact mul_nonneg (abs_nonneg q) this
      have hpy : pyInt (|q| * (stock : ℤ)) = ⌊|q| * ((stock : ℤ) : ℚ)⌋ :=
        pyInt_of_nonneg hs0
      constructor
      · -- cash + shares_sold * price ≥ 0
        have h0 : (0 : ℤ) ≤ pyInt (|q| * (stock : ℤ)) := by
          rw [hpy]; exact Int.floor_nonneg.mpr hs0
        have : (0 : ℚ) ≤ ((pyInt (|q| * (stock : ℤ)) : ℤ) : ℚ) * price := by
          have : (0 : ℚ) ≤ ((pyInt (|q| * (stock : ℤ)) : ℤ) : ℚ) := by exact_mod_cast h0
          exact mul_nonneg this hp.le
        linarith
      · -- stock - shares_sold ≥ 0
        have hle : pyInt (|q| * (stock : ℤ)) ≤ stock := by
          rw [hpy]
          have h1' : |q| * ((stock : ℤ) : ℚ) ≤ ((stock : ℤ) : ℚ) := by
            have hsq : (0 : ℚ) ≤ ((stock : ℤ) : ℚ) := by exact_mod_cast hs
            nlinarith
          calc ⌊|q| * ((stock : ℤ) : ℚ)⌋ ≤ ⌊((stock : ℤ) : ℚ)⌋ := Int.floor_le_floor h1'
            _ = stock := Int.floor_intCast _
        omega
    · exact ⟨hc, hs⟩
    · exact ⟨hc, hs⟩

/-- A finite action clipped to zero, or a NaN, trades nothing. -/
theorem trade_hold (cash : ℚ) (stock : ℤ) (price : ℚ) {a : Action}
    (ha : a = .nan ∨ a = .finite 0) :
    trade cash stock price a = (cash, stock, 0) := by
  rcases ha with rfl | rfl <;> simp [trade]

/-- Unfolding lemma for a successful `step`: when the cursor is in range, the
call returns exactly this record. -/
theorem step_eq (e : SimpleTradingEnv) (a : Action)
    (h : e.current_step < e.df.length) :
    e.step a =
      .ok { obs := ({ e with
                cash := (trade e.cash e.stock_owned
                  (e.df.get ⟨e.current_step, h⟩).close (clip a)).1
                stock_owned := (trade e.cash e.stock_owned
                  (e.df.get ⟨e.current_step, h⟩).close (clip a)).2.1
                current_step := e.current_step + 1 } : SimpleTradingEnv).get_obs
            reward := ((trade e.cash e.stock_owned
                  (e.df.get ⟨e.current_step, h⟩).close (clip a)).1 +
                ((trade e.cash e.stock_owned
                  (e.df.get ⟨e.current_step, h⟩).close (clip a)).2.1 : ℚ) *
                (if decide ((e.df.length : ℤ) - 1 ≤ ((e.current_step + 1 : ℕ) : ℤ))
                  then (e.df.get ⟨e.current_step, h⟩).close
                  else (e.df.getD (e.current_step + 1) dbar).close)) -
              (e.cash + (e.stock_owned : ℚ) * (e.df.get ⟨e.current_step, h⟩).close) -
              e.trade_penalty_factor * ((trade e.cash e.stock_owned
                (e.df.get ⟨e.current_step, h⟩).close (clip a)).2.2 : ℚ)
            done := decide ((e.df.length : ℤ) - 1 ≤ ((e.current_step + 1 : ℕ) : ℤ))
            env := { e with
                cash := (trade e.cash e.stock_owned
                  (e.df.get ⟨e.current_step, h⟩).close (clip a)).1
                stock_owned := (trade e.cash e.stock_owned
                  (e.df.get ⟨e.current_step, h⟩).close (clip a)).2.1
                current_step := e.current_step + 1 }
            price := (e.df.get ⟨e.current_step, h⟩).close
            next_price :=
              if decide ((e.df.length : ℤ) - 1 ≤ ((e.current_step + 1 : ℕ) : ℤ))
                then (e.df.get ⟨e.current_step, h⟩).close
                else (e.df.getD (e.current_step + 1) dbar).close
            traded := (trade e.cash e.stock_owned
              (e.df.get ⟨e.current_step, h⟩).close (clip a)).2.2 } := by
  unfold SimpleTradingEnv.step
  rw [dif_pos h]

/-- A `step` from an out-of-range cursor is the out-of-bounds `iloc` read. -/
theorem step_err (e : SimpleTradingEnv) (a : Action)
    (h : ¬ e.current_step < e.df.length) :
    e.step a = .error .rangeError := by
  unfold SimpleTradingEnv.step
  rw [dif_neg h]

/-- A successful step can only happen with the cursor in range. -/
theorem step_ok_lt {e : SimpleTradingEnv} {a : Action} {r : StepResult}
    (hr : e.step a = .ok r) : e.current_step < e.df.length := by
  by_contra h
  rw [step_err e a h] at hr
  exact Except.noConfusion hr

/-- `List.getD` agrees with in-range `List.get`. -/
theorem getD_eq_get_of_lt (l : List Bar) (n : ℕ) (h : n < l.length) :
    l.getD n dbar = l.get ⟨n, h⟩ := by
  simp [List.getD_eq_getElem?_getD, List.getElem?_eq_getElem h, List.get_eq_getElem]

/-- Everything a successful `step` call determines, phrased through the
spec-side price reading `specPriceAt`. -/
theorem step_fields {e : SimpleTradingEnv} {a : Action} {r : StepResult}
    (hr : e.step a = .ok r) :
    r.env.df = e.df ∧ r.env.lookback = e.lookback ∧
    r.env.initial_cash = e.initial_cash ∧
    r.env.trade_penalty_factor = e.trade_penalty_factor ∧
    r.env.current_step = e.current_step + 1 ∧
    r.env.cash = (trade e.cash e.stock_owned (specPriceAt e) (clip a)).1 ∧
    r.env.stock_owned = (trade e.cash e.stock_owned (specPriceAt e) (clip a)).2.1 ∧
    r.traded = (trade e.cash e.stock_owned (specPriceAt e) (clip a)).2.2 ∧
    r.price = specPriceAt e ∧
    r.done = decide ((e.df.length : ℤ) - 1 ≤ ((e.current_step + 1 : ℕ) : ℤ)) ∧
    r.next_price = (if r.done then specPriceAt e
      else (e.df.getD (e.current_step + 1) dbar).close) ∧
    r.reward = (r.env.cash + (r.env.stock_owned : ℚ) * r.next_price) -
      (e.cash + (e.stock_owned : ℚ) * r.price) -
      e.trade_penalty_factor * (r.traded : ℚ) ∧
    r.obs = r.env.get_obs := by
  have h := step_ok_lt hr
  have hget : specPriceAt e = (e.df.get ⟨e.current_step, h⟩).close := by
    unfold specPriceAt
    rw [getD_eq_get_of_lt e.df e.current_step h]
  rw [step_eq e a h] at hr
  have hr' := (Except.ok.injEq _ _).mp hr.symm
  subst hr'
  exact ⟨rfl, rfl, rfl, rfl, rfl, by rw [hget], by rw [hget], by rw [hget], hget.symm,
    rfl, by rw [hget], rfl, rfl⟩

/-- `env3` is exactly the state `reset` leaves on `init df3 1`. -/
theorem env3_eq_reset : ((SimpleTradingEnv.init df3 1).reset).2 = env3 := rfl

/-- The result of a hold step from `env3`: the episode terminates at once
(cursor 2 = length - 1) and nothing trades on a constant series. -/
def r3hold : StepResult :=
  { obs := [100, 100, 100, 100, 100, 100, 10000, 0]
    reward := 0
    done := true
    env := env3term
    price := 100
    next_price := 100
    traded := 0 }

theorem env3_step_hold : env3.step (Action.finite 0) = .ok r3hold := by
  norm_num [SimpleTradingEnv.step, SimpleTradingEnv.get_obs, trade, clip, pyInt,
    env3, env3term, df3, bar100, r3hold]

/-- The result of stepping the already-terminated `env3term` once more: the
call still succeeds. -/
def r3term : StepResult :=
  { obs := [100, 100, 100, 100, 100, 100, 10000, 0]
    reward := 0
    done := true
    env := env3past
    price := 100
    next_price := 100
    traded := 0 }

theorem env3term_step : env3term.step (Action.finite 0) = .ok r3term := by
  norm_num [SimpleTradingEnv.step, SimpleTradingEnv.get_obs, trade, clip, pyInt,
    env3, env3term, env3past, df3, bar100, r3term]

/-- The data-frame reference never changes along any run. -/
theorem reach_df {e0 e : SimpleTradingEnv} (h : Reach e0 e) : e.df = e0.df := by
  induction h with
  | refl => rfl
  | step _ hstep ih => exact ((step_fields hstep).1).trans ih

/-- C1: for every successful `step` call (any state with the cursor in range,
in particular `Ready` and `Active` states), the returned reward equals
`new_value - prev_value - trade_penalty_factor * traded`, where `prev_value`
is recomputed from the pre-step portfolio at the current bar's close,
`new_value` from the post-trade portfolio at the next price (the post-advance
close, or the same close on the terminal step), and `traded` is the absolute
change in holdings (0 when no trade executed). -/
theorem C1_reward_identity {e : SimpleTradingEnv} {a : Action} {r : StepResult}
    (hr : e.step a = .ok r) :
    r.reward =
      (r.env.cash + (r.env.stock_owned : ℚ) *
        (if r.done then specPriceAt e else (e.df.getD (e.current_step + 1) dbar).close)) -
      (e.cash + (e.stock_owned : ℚ) * specPriceAt e) -
      e.trade_penalty_factor * (((r.env.stock_owned - e.stock_owned).natAbs : ℤ) : ℚ) := by
  obtain ⟨-, -, -, -, -, -, hstock, htraded, hprice, -, hnp, hrew, -⟩ := step_fields hr
  rw [hrew, hprice, hnp]
  have habs : r.traded = |r.env.stock_owned - e.stock_owned| := by
    rw [htraded, hstock, trade_traded_eq]
  rw [habs]
  push_cast [Int.cast_natAbs]
  ring

/-- C1 witness: the identity instantiated on a concrete hold step over the
three-bar constant series. -/
theorem C1_reward_identity_witness :
    r3hold.reward =
      (r3hold.env.cash + (r3hold.env.stock_owned : ℚ) *
        (if r3hold.done then specPriceAt env3
          else (env3.df.getD (env3.current_step + 1) dbar).close)) -
      (env3.cash + (env3.stock_owned : ℚ) * specPriceAt env3) -
      env3.trade_penalty_factor *
        (((r3hold.env.stock_owned - env3.stock_owned).natAbs : ℤ) : ℚ) :=
  C1_reward_identity env3_step_hold

/-- C2: starting from `reset` of a freshly constructed environment over a
series of strictly positive closes, every reachable state keeps `cash ≥ 0`
and `stock_owned ≥ 0`, whatever actions are played. -/
theorem C2_nonneg_invariant {df : List Bar} {L : ℕ} {e : SimpleTradingEnv}
    (hp : ∀ b ∈ df, 0 < b.close)
    (hre : Reach ((SimpleTradingEnv.init df L).reset).2 e) :
    0 ≤ e.cash ∧ 0 ≤ e.stock_owned := by
  induction hre with
  | refl => exact ⟨by norm_num [SimpleTradingEnv.init, SimpleTradingEnv.reset], le_refl 0⟩
  | step hre' hstep ih =>
    rename_i e' a r
    obtain ⟨-, -, -, -, -, hcash, hstock, -, -, -, -, -, -⟩ := step_fields hstep
    have hlt := step_ok_lt hstep
    have hdf : e'.df = df := by
      have := reach_df hre'
      simpa [SimpleTradingEnv.reset, SimpleTradingEnv.init] using this
    have hprice : 0 < specPriceAt e' := by
      unfold specPriceAt
      rw [getD_eq_get_of_lt e'.df e'.current_step hlt]
      refine hp _ ?_
      rw [← hdf]
      exact List.get_mem _ _ _
    have := @trade_nonneg e'.cash e'.stock_owned (specPriceAt e') (clip a) ih.1 ih.2
      hprice (clip_isClipped a)
    rw [hcash, hstock]
    exact this

/-- C2 witness: on the concrete three-bar series the state reached by one
step keeps the invariant. -/
theorem C2_nonneg_invariant_witness :
    0 ≤ env3term.cash ∧ 0 ≤ env3term.stock_owned := by
  have hreach : Reach ((SimpleTradingEnv.init df3 1).reset).2 r3hold.env := by
    rw [env3_eq_reset]
    exact @Reach.step env3 env3 (Action.finite 0) r3hold Reach.refl env3_step_hold
  have := @C2_nonneg_invariant df3 1 r3hold.env
    (by intro b hb; fin_cases hb <;> norm_num [bar100]) hreach
  simpa [r3hold] using this

/-- C4: the `price` a step works with is the close at the pre-advance cursor;
on the terminal step `next_price` falls back to that same price, and on a
non-terminal step it is the close at the post-advance cursor. -/
theorem C4_next_price {e : SimpleTradingEnv} {a : Action} {r : StepResult}
    (hr : e.step a = .ok r) :
    r.price = specPriceAt e ∧
    (r.done = true → r.next_price = specPriceAt e) ∧
    (r.done = false →
      r.next_price = (e.df.getD (r.env.current_step) dbar).close ∧
      r.env.current_step = e.current_step + 1) := by
  obtain ⟨-, -, -, -, hcur, -, -, -, hprice, -, hnp, -, -⟩ := step_fields hr
  refine ⟨hprice, ?_, ?_⟩
  · intro hd
    rw [hnp, hd, if_pos rfl]
  · intro hd
    rw [hnp, hd, hcur]
    exact ⟨rfl, rfl⟩

/-- C4 witness: on the terminal hold step over the constant series,
`next_price` equals the pre-advance close. -/
theorem C4_next_price_witness :
    r3hold.price = specPriceAt env3 ∧
    (r3hold.done = true → r3hold.next_price = specPriceAt env3) ∧
    (r3hold.done = false →
      r3hold.next_price = (env3.df.getD (r3hold.env.current_step) dbar).close ∧
      r3hold.env.current_step = env3.current_step + 1) :=
  C4_next_price env3_step_hold

/-- C6: `reset` restores `cash = initial_cash`, `stock_owned = 0`,
`cursor = lookback` from any state whatsoever, returns the encoded
observation of the restored state (whose window ends at `cursor = lookback`),
and is idempotent: resetting twice is the same as resetting once. -/
theorem C6_reset_idempotent (e : SimpleTradingEnv) :
    (e.reset).2.cash = e.initial_cash ∧
    (e.reset).2.stock_owned = 0 ∧
    (e.reset).2.current_step = e.lookback ∧
    (e.reset).1 = ((e.reset).2).get_obs ∧
    ((e.reset).2).reset = e.reset :=
  ⟨rfl, rfl, rfl, rfl, rfl⟩

/-- Core induction for C3: from a state with `as.length` actions left to play
and `current_step + as.length + 1 = length`, the run succeeds, every step but
the last reports `done = false`, the last reports `done = true`, and the
final cursor is `length - 1`. -/
theorem runDones_spec (as : List Action) : ∀ (e : SimpleTradingEnv),
    e.current_step + as.length + 1 = e.df.length →
    1 ≤ as.length →
    ∃ p, runDones e as = .ok p ∧ p.1.current_step = e.df.length - 1 ∧
      p.2 = List.replicate (as.length - 1) false ++ [true] := by
  induction as with
  | nil => intro e _ h1; simp at h1
  | cons a as ih =>
    intro e hsum _
    have hlt : e.current_step < e.df.length := by
      simp only [List.length_cons] at hsum
      omega
    obtain ⟨r, hr⟩ : ∃ r, e.step a = .ok r := ⟨_, step_eq e a hlt⟩
    obtain ⟨hdf, -, -, -, hcur, -, -, -, -, hdone, -, -, -⟩ := step_fields hr
    by_cases hnil : as = []
    · subst hnil
      refine ⟨(r.env, [r.done]), ?_, ?_, ?_⟩
      · simp [runDones, hr]
      · show r.env.current_step = e.df.length - 1
        rw [hcur]
        simp only [List.length_cons, List.length_nil] at hsum
        omega
      · have : r.done = true := by
          rw [hdone]
          simp only [decide_eq_true_eq]
          simp only [List.length_cons, List.length_nil] at hsum
          omega
        simp [this]
    · have hlen1 : 1 ≤ as.length := by
        cases as with
        | nil => exact absurd rfl hnil
        | cons _ _ => simp
      have hsum' : r.env.current_step + as.length + 1 = r.env.df.length := by
        rw [hcur, hdf]
        simp only [List.length_cons] at hsum
        omega
      obtain ⟨p, hp, hpc, hpd⟩ := ih r.env hsum' hlen1
      refine ⟨(p.1, r.done :: p.2), ?_, ?_, ?_⟩
      · simp [runDones, hr, hp]
      · rw [hpc, hdf]
      · have : r.done = false := by
          rw [hdone]
          simp only [decide_eq_false_iff_not, not_le]
          simp only [List.length_cons] at hsum
          omega
        rw [this, hpd]
        have : (a :: as).length - 1 = (as.length - 1) + 1 := by
          simp only [List.length_cons]
          omega
        rw [this, List.replicate_succ]
        simp

/-- C3: in an episode started by `reset` on a series of length `N ≥ L + 2`,
any run of exactly `N - L - 1` steps succeeds whatever the actions are, every
step before the last returns `done = false`, the last returns `done = true`,
and the post-advance cursor of that terminal step is `N - 1`. -/
theorem C3_termination {df : List Bar} {L : ℕ} (h : L + 2 ≤ df.length)
    (as : List Action) (hlen : as.length = df.length - L - 1) :
    ((runDones ((SimpleTradingEnv.init df L).reset).2 as).toOption.map
      (fun p => (p.1.current_step, p.2))) =
      some (df.length - 1, List.replicate (df.length - L - 2) false ++ [true]) := by
  have hsum : ((SimpleTradingEnv.init df L).reset).2.current_step + as.length + 1 =
      ((SimpleTradingEnv.init df L).reset).2.df.length := by
    simp only [SimpleTradingEnv.reset, SimpleTradingEnv.init]
    omega
  have hlen1 : 1 ≤ as.length := by omega
  obtain ⟨p, hp, hpc, hpd⟩ := runDones_spec as _ hsum hlen1
  rw [hp]
  show some (p.1.current_step, p.2) =
    some (df.length - 1, List.replicate (df.length - L - 2) false ++ [true])
  rw [hpc, hpd]
  have h1 : ((SimpleTradingEnv.init df L).reset).2.df.length = df.length := rfl
  rw [h1]
  have h2 : as.length - 1 = df.length - L - 2 := by omega
  rw [h2]

/-- C3 witness: on the three-bar series with lookback 1, one single step ends
the episode with `done = true` and cursor 2. -/
theorem C3_termination_witness :
    ((runDones ((SimpleTradingEnv.init df3 1).reset).2 [Action.finite 0]).toOption.map
      (fun p => (p.1.current_step, p.2))) =
      some (df3.length - 1, List.replicate (df3.length - 1 - 2) false ++ [true]) :=
  C3_termination (by norm_num [df3]) [Action.finite 0] (by norm_num [df3])

/-! Reduction of the spec-side accessors on a successful step. -/

theorem stepEnv_ok {e : SimpleTradingEnv} {a : Action} {r : StepResult}
    (hr : e.step a = .ok r) : stepEnv e a = some r.env := by
  unfold stepEnv; rw [hr]; rfl

theorem stepDone_ok {e : SimpleTradingEnv} {a : Action} {r : StepResult}
    (hr : e.step a = .ok r) : stepDone e a = some r.done := by
  unfold stepDone; rw [hr]; rfl

theorem stepReward_ok {e : SimpleTradingEnv} {a : Action} {r : StepResult}
    (hr : e.step a = .ok r) : stepReward e a = some r.reward := by
  unfold stepReward; rw [hr]; rfl

theorem stepTraded_ok {e : SimpleTradingEnv} {a : Action} {r : StepResult}
    (hr : e.step a = .ok r) : stepTraded e a = some r.traded := by
  unfold stepTraded; rw [hr]; rfl

theorem stepCash_ok {e : SimpleTradingEnv} {a : Action} {r : StepResult}
    (hr : e.step a = .ok r) : stepCash e a = some r.env.cash := by
  unfold stepCash; rw [hr]; rfl

/-- Stepping `env3` with a NaN action: identical outcome to the hold step. -/
theorem env3_step_nan : env3.step Action.nan = .ok r3hold := by
  norm_num [SimpleTradingEnv.step, SimpleTradingEnv.get_obs, trade, clip,
    env3, env3term, df3, bar100, r3hold]

/-- The result of stepping `env3` with action 1/25: a buy of
`int(0.04 * 100) = 4` shares executes (the hardcoded threshold is 1), cash
drops to 9600, and the reward is `-0.01 * 4`. -/
def r3buy : StepResult :=
  { obs := [100, 100, 100, 100, 100, 100, 9600, 4]
    reward := -1 / 25
    done := true
    env := { env3 with cash := 9600, stock_owned := 4, current_step := 2 }
    price := 100
    next_price := 100
    traded := 4 }

theorem env3_step_buy4 : env3.step (Action.finite (1 / 25)) = .ok r3buy := by
  have h : env3.current_step < env3.df.length := by norm_num [env3, df3]
  rw [step_eq env3 _ h]
  have hclip : clip (Action.finite (1 / 25)) = Action.finite (1 / 25) := by
    norm_num [clip]
  have htr : trade env3.cash env3.stock_owned
      ((env3.df.get ⟨env3.current_step, h⟩).close) (clip (Action.finite (1 / 25))) =
      (9600, 4, 4) := by
    rw [hclip]
    show trade 10000 0 100 (Action.finite (1 / 25)) = (9600, 4, 4)
    norm_num [trade, pyInt]
  rw [htr]
  norm_num [SimpleTradingEnv.get_obs, env3, df3, bar100, r3buy]

/-- A hold (clipped action 0 or NaN) or a sub-threshold trade leaves the
portfolio untouched. -/
theorem trade_no_exec {cash : ℚ} {stock : ℤ} {price : ℚ} {a : Action}
    (ha : a = Action.finite 0 ∨ a = Action.nan ∨
      (∃ q, a = Action.finite q ∧ 0 < q ∧ pyInt (q * ⌊cash / price⌋) < 1) ∨
      (∃ q, a = Action.finite q ∧ q < 0 ∧ pyInt (|q| * stock) < 1)) :
    trade cash stock price a = (cash, stock, 0) := by
  rcases ha with rfl | rfl | ⟨q, rfl, hq, hlt⟩ | ⟨q, rfl, hq, hlt⟩
  · simp [trade]
  · simp [trade]
  · dsimp only [trade]
    rw [if_pos hq, if_neg (show ¬ (1 : ℤ) ≤ pyInt (q * ⌊cash / price⌋) by omega)]
  · dsimp only [trade]
    rw [if_neg (not_lt.mpr hq.le), if_pos hq,
      if_neg (show ¬ (1 : ℤ) ≤ pyInt (|q| * stock) by omega)]

/-- C7 counterexample: the claim's "min_trade_units = 5" boundary scenario is
false on the code, whose threshold is the fixed constant 1: from the
concrete reset state with cash 10000 and price 100, the action 1/25 implies
`shares_to_buy = 4`, and a trade of 4 shares **does** execute — cash changes
from 10000 to 9600 and `traded = 4`. -/
theorem C7_counterexample :
    stepTraded env3 (Action.finite (1 / 25)) = some 4 ∧
    stepCash env3 (Action.finite (1 / 25)) = some 9600 ∧
    env3.cash = 10000 := by
  refine ⟨?_, ?_, rfl⟩
  · rw [stepTraded_ok env3_step_buy4]; rfl
  · rw [stepCash_ok env3_step_buy4]; rfl

/-- C7 amended: with the threshold hardcoded to 1 in `step`, a step whose
clamped action is 0 (or NaN), or whose computed trade size
(`floor(action * max_affordable)` for a buy, `floor(|action| * shares_owned)`
for a sell) is below 1, leaves cash and shares unchanged and reports
`traded = 0`. -/
theorem C7_no_trade_below_threshold {e : SimpleTradingEnv} {a : Action}
    {r : StepResult} (hr : e.step a = .ok r)
    (ha : clip a = Action.finite 0 ∨ clip a = Action.nan ∨
      (∃ q, clip a = Action.finite q ∧ 0 < q ∧
        pyInt (q * ⌊e.cash / specPriceAt e⌋) < 1) ∨
      (∃ q, clip a = Action.finite q ∧ q < 0 ∧
        pyInt (|q| * e.stock_owned) < 1)) :
    r.env.cash = e.cash ∧ r.env.stock_owned = e.stock_owned ∧ r.traded = 0 := by
  obtain ⟨-, -, -, -, -, hcash, hstock, htraded, -, -, -, -, -⟩ := step_fields hr
  have ht : trade e.cash e.stock_owned (specPriceAt e) (clip a) =
      (e.cash, e.stock_owned, 0) := trade_no_exec ha
  rw [hcash, hstock, htraded, ht]
  exact ⟨rfl, rfl, rfl⟩

/-- C7 amended, witness: the hold action 0 on the concrete environment. -/
theorem C7_no_trade_below_threshold_witness :
    r3hold.env.cash = env3.cash ∧ r3hold.env.stock_owned = env3.stock_owned ∧
    r3hold.traded = 0 :=
  C7_no_trade_below_threshold env3_step_hold (Or.inl (by norm_num [clip]))

/-- C8 counterexample: after a step from the reset state returns
`done = true` (leaving the Terminated state `env3term`), stepping again does
**not** fail with `InvalidStateError` — the call succeeds and advances the
cursor past the end. -/
theorem C8_counterexample :
    stepDone env3 (Action.finite 0) = some true ∧
    stepEnv env3 (Action.finite 0) = some env3term ∧
    env3term.step (Action.finite 0) ≠ .error TErr.invalidStateError ∧
    stepEnv env3term (Action.finite 0) = some env3past := by
  refine ⟨?_, ?_, ?_, ?_⟩
  · rw [stepDone_ok env3_step_hold]; rfl
  · rw [stepEnv_ok env3_step_hold]; rfl
  · rw [env3term_step]; exact fun hc => Except.noConfusion hc
  · rw [stepEnv_ok env3term_step]; rfl

/-- C8 amended: calling `step` in the Terminated state (cursor at
`length - 1`) raises nothing: the call succeeds (so in particular it never
returns `InvalidStateError`) and reports `done = true` again. -/
theorem C8_terminated_step_succeeds (e : SimpleTradingEnv) (a : Action)
    (h : e.current_step + 1 = e.df.length) :
    stepDone e a = some true ∧ e.step a ≠ .error TErr.invalidStateError := by
  have hlt : e.current_step < e.df.length := by omega
  obtain ⟨r, hr⟩ : ∃ r, e.step a = .ok r := ⟨_, step_eq e a hlt⟩
  obtain ⟨-, -, -, -, -, -, -, -, -, hdone, -, -, -⟩ := step_fields hr
  constructor
  · rw [stepDone_ok hr, hdone]
    have hdec : decide ((e.df.length : ℤ) - 1 ≤ ((e.current_step + 1 : ℕ) : ℤ)) = true :=
      decide_eq_true (by push_cast; omega)
    rw [hdec]
  · rw [hr]
    exact fun hc => Except.noConfusion hc

/-- C8 amended, witness: the concrete Terminated state `env3term`. -/
theorem C8_terminated_step_succeeds_witness :
    stepDone env3term (Action.finite 0) = some true ∧
    env3term.step (Action.finite 0) ≠ .error TErr.invalidStateError :=
  C8_terminated_step_succeeds env3term (Action.finite 0) (by norm_num [env3term, env3, df3])

/-- Field-wise extensionality for the environment state. -/
theorem SimpleTradingEnv.ext' {x y : SimpleTradingEnv} (h1 : x.df = y.df)
    (h2 : x.lookback = y.lookback) (h3 : x.cash = y.cash)
    (h4 : x.stock_owned = y.stock_owned) (h5 : x.current_step = y.current_step)
    (h6 : x.initial_cash = y.initial_cash)
    (h7 : x.trade_penalty_factor = y.trade_penalty_factor) : x = y := by
  cases x
  cases y
  simp_all

/-- A successful step's internal `next_price` always agrees with the
spec-side recomputation `specNextPriceAt`. -/
theorem step_next_price_eq {e : SimpleTradingEnv} {a : Action} {r : StepResult}
    (hr : e.step a = .ok r) : r.next_price = specNextPriceAt e := by
  obtain ⟨-, -, -, -, -, -, -, -, -, hdone, hnp, -, -⟩ := step_fields hr
  rw [hnp, hdone]
  unfold specNextPriceAt
  rcases le_or_lt ((e.df.length : ℤ) - 1) ((e.current_step : ℤ) + 1) with hc | hc
  · rw [if_pos (decide_eq_true
      (show (e.df.length : ℤ) - 1 ≤ ((e.current_step + 1 : ℕ) : ℤ) by push_cast; omega)),
      if_pos hc]
  · rw [if_neg (fun hb => by
        have hb' := of_decide_eq_true hb
        push_cast at hb'
        omega),
      if_neg (not_le.mpr hc)]

/-- C9 counterexample: a NaN action does **not** fail with
`InvalidInputError`; the step returns normally (ending in the same state a
hold would). -/
theorem C9_counterexample :
    env3.step Action.nan ≠ .error TErr.invalidInputError ∧
    stepEnv env3 Action.nan = some env3term := by
  constructor
  · rw [env3_step_nan]
    exact fun hc => Except.noConfusion hc
  · rw [stepEnv_ok env3_step_nan]
    rfl

/-- C9 amended: `step` never fails with `InvalidInputError` for any action,
finite or not (its only failure is the out-of-range read); the effective
action is `np.clip(action, -1, 1)`, which sends every finite action to
`clamp(a, -1, 1) = max(-1, min(1, a))`, +∞ to 1, -∞ to -1, and passes NaN
through (which then trades nothing). -/
theorem C9_no_invalid_input_error :
    (∀ (e : SimpleTradingEnv) (a : Action), e.step a ≠ .error TErr.invalidInputError) ∧
    (∀ q : ℚ, clip (Action.finite q) = Action.finite (max (-1) (min 1 q))) ∧
    clip Action.posInf = Action.finite 1 ∧
    clip Action.negInf = Action.finite (-1) ∧
    clip Action.nan = Action.nan := by
  refine ⟨?_, ?_, rfl, rfl, rfl⟩
  · intro e a
    by_cases h : e.current_step < e.df.length
    · rw [step_eq e a h]
      exact fun hc => Except.noConfusion hc
    · rw [step_err e a h]
      intro hc
      exact TErr.noConfusion ((Except.error.injEq _ _).mp hc)
  · intro q
    unfold clip
    rw [max_min_distrib_left]
    norm_num

/-- C10 counterexample: the state with cursor = length (reached by stepping
the terminated environment once more) is reachable from reset, and there a
NaN step does **not** return normally — it fails with the out-of-range
read. -/
theorem C10_counterexample :
    Reach ((SimpleTradingEnv.init df3 1).reset).2 env3past ∧
    env3past.step Action.nan = .error TErr.rangeError := by
  constructor
  · rw [env3_eq_reset]
    exact @Reach.step env3 env3term (Action.finite 0) r3term
      (@Reach.step env3 env3 (Action.finite 0) r3hold Reach.refl env3_step_hold)
      env3term_step
  · exact step_err _ _ (by norm_num [env3past, env3, df3])

/-- C10 amended: from every state whose cursor is still within the series
(true of every reachable state except the past-the-end state left by
stepping a terminated environment), a NaN step returns normally and behaves
exactly like a hold: portfolio untouched, `traded = 0`, cursor advanced by
1, and `reward = new_value - prev_value = shares_owned * (next_price -
price)`. -/
theorem C10_nan_step_is_hold {e : SimpleTradingEnv}
    (h : e.current_step < e.df.length) :
    stepEnv e Action.nan = some { e with current_step := e.current_step + 1 } ∧
    stepTraded e Action.nan = some 0 ∧
    stepReward e Action.nan =
      some ((e.stock_owned : ℚ) * (specNextPriceAt e - specPriceAt e)) := by
  obtain ⟨r, hr⟩ : ∃ r, e.step Action.nan = .ok r := ⟨_, step_eq e _ h⟩
  obtain ⟨hdf, hlb, hic, hpf, hcur, hcash, hstock, htraded, hprice, -, -, hrew, -⟩ :=
    step_fields hr
  have ht : trade e.cash e.stock_owned (specPriceAt e) (clip Action.nan) =
      (e.cash, e.stock_owned, 0) := trade_no_exec (Or.inr (Or.inl rfl))
  rw [ht] at hcash hstock htraded
  dsimp only at hcash hstock htraded
  refine ⟨?_, ?_, ?_⟩
  · rw [stepEnv_ok hr]
    exact congrArg some (SimpleTradingEnv.ext' hdf hlb hcash hstock hcur hic hpf)
  · rw [stepTraded_ok hr, htraded]
  · rw [stepReward_ok hr, hrew, hcash, hstock, htraded, hprice, step_next_price_eq hr]
    refine congrArg some ?_
    push_cast
    ring

/-- C10 amended, witness: the concrete reset state of the three-bar
series. -/
theorem C10_nan_step_is_hold_witness :
    stepEnv env3 Action.nan = some { env3 with current_step := env3.current_step + 1 } ∧
    stepTraded env3 Action.nan = some 0 ∧
    stepReward env3 Action.nan =
      some ((env3.stock_owned : ℚ) * (specNextPriceAt env3 - specPriceAt env3)) :=
  C10_nan_step_is_hold (by norm_num [env3, df3])

/-! List lemmas for the observation layout. -/

/-- Length of the row-major flattened OHLC block. -/
theorem quad_length (l : List Bar) :
    (l.flatMap fun b => [b.open_, b.high, b.low, b.close]).length = 4 * l.length := by
  induction l with
  | nil => simp
  | cons b t ih =>
    simp only [List.flatMap_cons, List.length_append, ih, List.length_cons]
    simp
    omega

/-- Indexing the flattened OHLC block: position `4*i + j` holds the `j`-th
OHLC component of bar `i`. -/
theorem quad_getD (l : List Bar) : ∀ i, i < l.length →
    ((l.flatMap fun b => [b.open_, b.high, b.low, b.close]).getD (4 * i) 0 =
      (l.getD i dbar).open_ ∧
     (l.flatMap fun b => [b.open_, b.high, b.low, b.close]).getD (4 * i + 1) 0 =
      (l.getD i dbar).high ∧
     (l.flatMap fun b => [b.open_, b.high, b.low, b.close]).getD (4 * i + 2) 0 =
      (l.getD i dbar).low ∧
     (l.flatMap fun b => [b.open_, b.high, b.low, b.close]).getD (4 * i + 3) 0 =
      (l.getD i dbar).close) := by
  induction l with
  | nil => intro i h; simp at h
  | cons b t ih =>
    intro i h
    cases i with
    | zero =>
      simp [List.flatMap_cons, List.getD_cons_zero, List.getD_cons_succ]
    | succ j =>
      have hj : j < t.length := by
        simp only [List.length_cons] at h
        omega
      obtain ⟨h1, h2, h3, h4⟩ := ih j hj
      have e0 : 4 * (j + 1) = 4 * j + 1 + 1 + 1 + 1 := by ring
      have e1 : 4 * (j + 1) + 1 = (4 * j + 1) + 1 + 1 + 1 + 1 := by ring
      have e2 : 4 * (j + 1) + 2 = (4 * j + 2) + 1 + 1 + 1 + 1 := by ring
      have e3 : 4 * (j + 1) + 3 = (4 * j + 3) + 1 + 1 + 1 + 1 := by ring
      refine ⟨?_, ?_, ?_, ?_⟩
      · rw [List.flatMap_cons, List.cons_append, List.cons_append, List.cons_append,
          List.cons_append, List.nil_append, e0, List.getD_cons_succ,
          List.getD_cons_succ, List.getD_cons_succ, List.getD_cons_succ,
          List.getD_cons_succ, h1]
      · rw [List.flatMap_cons, List.cons_append, List.cons_append, List.cons_append,
          List.cons_append, List.nil_append, e1, List.getD_cons_succ,
          List.getD_cons_succ, List.getD_cons_succ, List.getD_cons_succ,
          List.getD_cons_succ, h2]
      · rw [List.flatMap_cons, List.cons_append, List.cons_append, List.cons_append,
          List.cons_append, List.nil_append, e2, List.getD_cons_succ,
          List.getD_cons_succ, List.getD_cons_succ, List.getD_cons_succ,
          List.getD_cons_succ, h3]
      · rw [List.flatMap_cons, List.cons_append, List.cons_append, List.cons_append,
          List.cons_append, List.nil_append, e3, List.getD_cons_succ,
          List.getD_cons_succ, List.getD_cons_succ, List.getD_cons_succ,
          List.getD_cons_succ, h4]

/-- Indexing a mapped column of the frame. -/
theorem getD_map_bar (f : Bar → ℚ) (l : List Bar) (i : ℕ) (h : i < l.length) :
    (l.map f).getD i 0 = f (l.getD i dbar) := by
  rw [List.getD_eq_getElem?_getD, List.getD_eq_getElem?_getD, List.getElem?_map,
    List.getElem?_eq_getElem h]
  rfl

/-- Indexing the lookback window inside the whole series. -/
theorem getD_frame (df : List Bar) (off L i : ℕ) (hi : i < L) :
    ((df.drop off).take L).getD i dbar = df.getD (off + i) dbar := by
  rw [List.getD_eq_getElem?_getD, List.getD_eq_getElem?_getD, List.getElem?_take,
    if_pos hi, List.getElem?_drop]

/-- The observation built by `_get_obs` has exactly the layout the
specification describes, whenever the cursor invariant
`lookback ≤ cursor ≤ length` holds. -/
theorem get_obs_layout (e : SimpleTradingEnv)
    (h1 : e.lookback ≤ e.current_step) (h2 : e.current_step ≤ e.df.length) :
    specObsLayout e.df e.lookback e.current_step e.cash e.stock_owned e.get_obs := by
  have hobs : e.get_obs =
      ((((e.df.drop (e.current_step - e.lookback)).take e.lookback).flatMap
        (fun b => [b.open_, b.high, b.low, b.close]) ++
      ((e.df.drop (e.current_step - e.lookback)).take e.lookback).map (fun b => b.sma5)) ++
      ((e.df.drop (e.current_step - e.lookback)).take e.lookback).map (fun b => b.sma20)) ++
      [e.cash, (e.stock_owned : ℚ)] := rfl
  have hflen : ((e.df.drop (e.current_step - e.lookback)).take e.lookback).length =
      e.lookback := by
    rw [List.length_take, List.length_drop]
    omega
  have hqlen : (((e.df.drop (e.current_step - e.lookback)).take e.lookback).flatMap
      (fun b => [b.open_, b.high, b.low, b.close])).length = 4 * e.lookback := by
    rw [quad_length, hflen]
  have hm5len : (((e.df.drop (e.current_step - e.lookback)).take e.lookback).map
      (fun b => b.sma5)).length = e.lookback := by
    rw [List.length_map, hflen]
  have hm20len : (((e.df.drop (e.current_step - e.lookback)).take e.lookback).map
      (fun b => b.sma20)).length = e.lookback := by
    rw [List.length_map, hflen]
  have hablen : (((e.df.drop (e.current_step - e.lookback)).take e.lookback).flatMap
      (fun b => [b.open_, b.high, b.low, b.close]) ++
      ((e.df.drop (e.current_step - e.lookback)).take e.lookback).map
        (fun b => b.sma5)).length = 5 * e.lookback := by
    rw [List.length_append, hqlen, hm5len]
    omega
  have habclen : ((((e.df.drop (e.current_step - e.lookback)).take e.lookback).flatMap
      (fun b => [b.open_, b.high, b.low, b.close]) ++
      ((e.df.drop (e.current_step - e.lookback)).take e.lookback).map (fun b => b.sma5)) ++
      ((e.df.drop (e.current_step - e.lookback)).take e.lookback).map
        (fun b => b.sma20)).length = 6 * e.lookback := by
    rw [List.length_append, hablen, hm20len]
    omega
  unfold specObsLayout
  rw [hobs]
  refine ⟨?_, ?_, ?_, ?_, ?_, ?_⟩
  · simp only [List.length_append, hqlen, hm5len, hm20len, List.length_cons,
      List.length_nil]
    omega
  · intro i hi
    have hif : i < ((e.df.drop (e.current_step - e.lookback)).take e.lookback).length := by
      rw [hflen]; exact hi
    obtain ⟨q0, q1, q2, q3⟩ := quad_getD _ i hif
    have hfr := getD_frame e.df (e.current_step - e.lookback) e.lookback i hi
    refine ⟨?_, ?_, ?_, ?_⟩
    · rw [List.getD_append _ _ _ _ (by rw [habclen]; omega),
        List.getD_append _ _ _ _ (by rw [hablen]; omega),
        List.getD_append _ _ _ _ (by rw [hqlen]; omega), q0, hfr]
    · rw [List.getD_append _ _ _ _ (by rw [habclen]; omega),
        List.getD_append _ _ _ _ (by rw [hablen]; omega),
        List.getD_append _ _ _ _ (by rw [hqlen]; omega), q1, hfr]
    · rw [List.getD_append _ _ _ _ (by rw [habclen]; omega),
        List.getD_append _ _ _ _ (by rw [hablen]; omega),
        List.getD_append _ _ _ _ (by rw [hqlen]; omega), q2, hfr]
    · rw [List.getD_append _ _ _ _ (by rw [habclen]; omega),
        List.getD_append _ _ _ _ (by rw [hablen]; omega),
        List.getD_append _ _ _ _ (by rw [hqlen]; omega), q3, hfr]
  · intro i hi
    rw [List.getD_append _ _ _ _ (by rw [habclen]; omega),
      List.getD_append _ _ _ _ (by rw [hablen]; omega),
      List.getD_append_right _ _ _ _ (by rw [hqlen]; omega), hqlen,
      show 4 * e.lookback + i - 4 * e.lookback = i by omega,
      getD_map_bar _ _ _ (by rw [hflen]; exact hi),
      getD_frame e.df (e.current_step - e.lookback) e.lookback i hi]
  · intro i hi
    rw [List.getD_append _ _ _ _ (by rw [habclen]; omega),
      List.getD_append_right _ _ _ _ (by rw [hablen]; omega), hablen,
      show 5 * e.lookback + i - 5 * e.lookback = i by omega,
      getD_map_bar _ _ _ (by rw [hflen]; exact hi),
      getD_frame e.df (e.current_step - e.lookback) e.lookback i hi]
  · rw [List.getD_append_right _ _ _ _ habclen.le, habclen,
      show 6 * e.lookback - 6 * e.lookback = 0 by omega, List.getD_cons_zero]
  · rw [List.getD_append_right _ _ _ _ (by rw [habclen]; omega), habclen,
      show 6 * e.lookback + 1 - 6 * e.lookback = 1 by omega, List.getD_cons_succ,
      List.getD_cons_zero]

/-- C5: every observation returned by `reset` or by a (successful) `step` is
the fixed-length `6*lookback + 2` vector laid out as the per-bar OHLC
quadruples of the lookback window ending at the (new) cursor in
chronological order, then the window's SMA5 column, then its SMA20 column,
then cash, then shares owned. -/
theorem C5_observation_layout {e : SimpleTradingEnv} {a : Action} {r : StepResult}
    (hL : e.lookback ≤ e.current_step) (hr : e.step a = .ok r) :
    specObsLayout e.df e.lookback r.env.current_step r.env.cash
      r.env.stock_owned r.obs ∧
    specObsLayout e.df e.lookback e.lookback e.initial_cash 0 (e.reset).1 := by
  have hlt := step_ok_lt hr
  obtain ⟨hdf, hlb, -, -, hcur, -, -, -, -, -, -, -, hobs⟩ := step_fields hr
  constructor
  · rw [hobs]
    have hthis := get_obs_layout r.env (by rw [hlb, hcur]; omega)
      (by rw [hdf, hcur]; omega)
    rw [hdf, hlb] at hthis
    exact hthis
  · have h2' : (e.reset).2.current_step ≤ (e.reset).2.df.length :=
      le_trans hL hlt.le
    exact get_obs_layout (e.reset).2 (Nat.le_refl _) h2'

/-- C5 witness: the layout instantiated on the concrete hold step and reset
of the three-bar series. -/
theorem C5_observation_layout_witness :
    specObsLayout env3.df env3.lookback r3hold.env.current_step r3hold.env.cash
      r3hold.env.stock_owned r3hold.obs ∧
    specObsLayout env3.df env3.lookback env3.lookback env3.initial_cash 0
      (env3.reset).1 :=
  C5_observation_layout (by norm_num [env3]) env3_step_hold

end Trading
